import Mathlib

/-!
Verification of the ndarray numeric core against its specification.

The Rust sources are shallowly embedded: slices become `List α`, the generic
element type `A : Clone + Add + Zero` becomes a type `α` with `[Zero α] [Add α]`
instances, array views become a `View` record of shape / strides / base offset
over a flat buffer `List α`, and functions that panic return `Option`
(`none` models the panic).  Recursions that the Rust code performs by
divide and conquer are embedded with an explicit fuel argument equal to the
measure that decreases (slice length, axis length); a fuel-irrelevance lemma
recovers the original recurrence, so every definition computes by `decide`.
-/

set_option maxRecDepth 100000

namespace Ndarray

/-! ## Definitions

The kernels of `numeric_util.rs`, the view model of `impl_views.rs` with the
shape/stride arithmetic of spec §3-§4, and the numeric reductions of
`impl_numeric.rs`.
-/

/-- Size threshold to switch to naive summation in all implementations of
pairwise summation (`numeric_util.rs`, non-test value). -/
def NAIVE_SUM_THRESHOLD : Nat := 64

/-- Number of elements processed by unrolled operators (`numeric_util.rs`). -/
def UNROLL_SIZE : Nat := 8

/-- Accumulator tuple of the eightfold unrolled loops. -/
abbrev Acc8 (α : Type) := α × α × α × α × α × α × α × α

/-- Sum of the 8 accumulators, used to state loop invariants of the unrolled
folds. -/
def t8 [Add α] (p : Acc8 α) : α :=
  p.1 + p.2.1 + p.2.2.1 + p.2.2.2.1 + p.2.2.2.2.1 + p.2.2.2.2.2.1 +
    p.2.2.2.2.2.2.1 + p.2.2.2.2.2.2.2

/-- Main loop of `unrolled_fold`: while at least 8 elements remain, feed one
element into each of the 8 independent accumulators, then continue on the
rest of the slice. -/
def ufLoop (f : α → α → α) : Acc8 α → List α → Acc8 α × List α
  | (p0, p1, p2, p3, p4, p5, p6, p7),
    x0 :: x1 :: x2 :: x3 :: x4 :: x5 :: x6 :: x7 :: rest =>
      ufLoop f (f p0 x0, f p1 x1, f p2 x2, f p3 x3,
                f p4 x4, f p5 x5, f p6 x6, f p7 x7) rest
  | p, xs => (p, xs)

/-- Fold over the manually unrolled `xs` with `f` (`unrolled_fold` in
`numeric_util.rs`).  The 8 partials are combined pairwise
(`p0+p4, p1+p5, p2+p6, p3+p7`, then `q0+q2, q1+q3`, then `r0+r1`) and the
remainder (fewer than 8 elements; the source loop breaks at `i >= 7`) is
folded naively from a fresh `init`. -/
def unrolled_fold (xs : List α) (init : α) (f : α → α → α) : α :=
  let st := ufLoop f (init, init, init, init, init, init, init, init) xs
  match st with
  | ((p0, p1, p2, p3, p4, p5, p6, p7), rem) =>
    let q0 := f p0 p4
    let q1 := f p1 p5
    let q2 := f p2 p6
    let q3 := f p3 p7
    let r0 := f q0 q2
    let r1 := f q1 q3
    let unrolled := f r0 r1
    let partialAcc := (rem.take 7).foldl f init
    f unrolled partialAcc

/-- Fuel-indexed body of `pairwise_sum` (`numeric_util.rs`): below or at the
threshold `NAIVE_SUM_THRESHOLD * UNROLL_SIZE` sum with the unrolled fold,
otherwise split the slice at `n / 2` and recurse on both halves.  The fuel is
an upper bound on the slice length, which suffices because each half of a
slice longer than the threshold is strictly shorter than the whole. -/
def pairwiseSumGo [Zero α] [Add α] : Nat → List α → α
  | 0, v => unrolled_fold v 0 (· + ·)
  | fuel + 1, v =>
    let n := v.length
    if n ≤ NAIVE_SUM_THRESHOLD * UNROLL_SIZE then
      unrolled_fold v 0 (· + ·)
    else
      let mid_index := n / 2
      pairwiseSumGo fuel (v.take mid_index) + pairwiseSumGo fuel (v.drop mid_index)

/-- Pairwise summation for a slice (`pairwise_sum` in `numeric_util.rs`). -/
def pairwise_sum [Zero α] [Add α] (v : List α) : α :=
  pairwiseSumGo v.length v

/-- Fuel-indexed body of `pure_pairwise_sum` (`numeric_util.rs`), the variant
that never switches to the naive algorithm: 0 elements give zero, 1 element
gives the element, otherwise split at `n / 2` and recurse. -/
def purePairwiseSumGo [Zero α] [Add α] : Nat → List α → α
  | 0, _ => 0
  | fuel + 1, v =>
    match v with
    | [] => 0
    | [x] => x
    | v =>
      let mid_index := v.length / 2
      purePairwiseSumGo fuel (v.take mid_index) + purePairwiseSumGo fuel (v.drop mid_index)

/-- Pairwise summation that never goes naive (`pure_pairwise_sum`). -/
def pure_pairwise_sum [Zero α] [Add α] (v : List α) : α :=
  purePairwiseSumGo v.length v

/-- One step of the fold inside `iterator_pairwise_sum`: accumulate up to
`NAIVE_SUM_THRESHOLD` elements into the running block sum, then push the
finished block sum and start a new block with the current element. -/
def ipsStep [Zero α] [Add α] (st : Nat × α × List α) (x : α) : Nat × α × List α :=
  match st with
  | (count, blockSum, blockSums) =>
    if count < NAIVE_SUM_THRESHOLD then
      (count + 1, blockSum + x, blockSums)
    else
      (1, x, blockSums ++ [blockSum])

/-- Pairwise summation for an iterator (`iterator_pairwise_sum`): fold the
elements into block sums of at most `NAIVE_SUM_THRESHOLD` elements, push the
last block sum, and combine the blocks with `pure_pairwise_sum`.  (The
`size_hint`-based capacity of the Rust vector has no observable effect.) -/
def iterator_pairwise_sum [Zero α] [Add α] (l : List α) : α :=
  let st := l.foldl ipsStep (0, 0, [])
  pure_pairwise_sum (st.2.2 ++ [st.2.1])

/-- Main loop of `unrolled_dot`: while both slices retain at least 8 elements,
feed one product into each of the 8 accumulators. -/
def udLoop [Add α] [Mul α] : Acc8 α → List α → List α → Acc8 α × List α × List α
  | (p0, p1, p2, p3, p4, p5, p6, p7),
    x0 :: x1 :: x2 :: x3 :: x4 :: x5 :: x6 :: x7 :: xr,
    y0 :: y1 :: y2 :: y3 :: y4 :: y5 :: y6 :: y7 :: yr =>
      udLoop (p0 + x0 * y0, p1 + x1 * y1, p2 + x2 * y2, p3 + x3 * y3,
              p4 + x4 * y4, p5 + x5 * y5, p6 + x6 * y6, p7 + x7 * y7) xr yr
  | p, xs, ys => (p, xs, ys)

/-- Dot product with eightfold unrolling (`unrolled_dot` in `numeric_util.rs`).
Both slices are first truncated to `min (xs.length) (ys.length)` (the
`debug_assert` on equal lengths is compiled out in release builds), the 8
partials are drained into `sum` in the source's order, and the remainder loop
(which breaks at `i >= 7`) adds the remaining products left to right. -/
def unrolled_dot [Zero α] [Add α] [Mul α] (xs0 ys0 : List α) : α :=
  let len := min xs0.length ys0.length
  let xs := xs0.take len
  let ys := ys0.take len
  let st := udLoop (0, 0, 0, 0, 0, 0, 0, 0) xs ys
  match st with
  | ((p0, p1, p2, p3, p4, p5, p6, p7), xr, yr) =>
    let s0 : α := 0 + (p0 + p4)
    let s1 := s0 + (p1 + p5)
    let s2 := s1 + (p2 + p6)
    let s3 := s2 + (p3 + p7)
    (List.zipWith (fun a b => a * b) (xr.take 7) (yr.take 7)).foldl (· + ·) s3

/-- Main loop of `unrolled_eq` after truncation: compare 8 pairs at a time,
returning `false` as soon as one of the 8 comparisons differs; the final
(fewer than 8 elements) remainder is compared pairwise. -/
def ueLoop [DecidableEq α] : List α → List α → Bool
  | x0 :: x1 :: x2 :: x3 :: x4 :: x5 :: x6 :: x7 :: xr,
    y0 :: y1 :: y2 :: y3 :: y4 :: y5 :: y6 :: y7 :: yr =>
      if x0 ≠ y0 ∨ x1 ≠ y1 ∨ x2 ≠ y2 ∨ x3 ≠ y3 ∨
         x4 ≠ y4 ∨ x5 ≠ y5 ∨ x6 ≠ y6 ∨ x7 ≠ y7 then
        false
      else
        ueLoop xr yr
  | xs, ys => (List.zipWith (fun a b => decide (a = b)) xs ys).all id

/-- Pairwise equality with eightfold unrolling (`unrolled_eq` in
`numeric_util.rs`); both slices are first truncated to the minimum of the two
lengths. -/
def unrolled_eq [DecidableEq α] (xs0 ys0 : List α) : Bool :=
  let len := min xs0.length ys0.length
  ueLoop (xs0.take len) (ys0.take len)

/-- Multi-index space of a shape, enumerated in row-major (C) order, the
logical iteration order of the base iterator (spec §4.3). -/
def indices : List Nat → List (List Nat)
  | [] => [[]]
  | n :: rest => (List.range n).flatMap fun i => (indices rest).map (i :: ·)

/-- Stride-weighted contribution of a multi-index:
`Σ index[i] * stride[i]` (spec §3, Strides invariant). -/
def offAux (strides : List Int) (idx : List Nat) : Int :=
  (List.zipWith (fun (i : Nat) (s : Int) => (i : Int) * s) idx strides).sum

/-- Array view: per-axis lengths, per-axis strides (in elements, possibly
zero or negative) and the base offset into the flat buffer; mirrors the
dimension / strides / pointer triple of the Rust ArrayView. -/
structure View where
  shape : List Nat
  strides : List Int
  offset : Int
deriving DecidableEq

/-- Rank (`ndim()`). -/
def View.rank (v : View) : Nat := v.shape.length

/-- Total element count (`len()`), the product of the axis lengths. -/
def View.count (v : View) : Nat := v.shape.prod

/-- Length of one axis (`len_of`); out-of-range axes are guarded by the
callers, as the Rust accessor panics there. -/
def View.len_of (v : View) (axis : Nat) : Nat := v.shape.getD axis 0

/-- Stride of one axis (`stride_of`). -/
def View.stride_of (v : View) (axis : Nat) : Int := v.strides.getD axis 0

/-- Memory offset of the element at a multi-index:
`base + Σ index[i] * stride[i]` (spec §3). -/
def offsetAt (v : View) (idx : List Nat) : Int := v.offset + offAux v.strides idx

/-- Offsets of all elements of the view in row-major logical order. -/
def View.offsets (v : View) : List Int := (indices v.shape).map (offsetAt v)

/-- Read of the buffer at an offset; in-bounds views never hit the default. -/
def readD [Zero α] (buf : List α) (o : Int) : α := buf.getD o.toNat 0

/-- Elements of the view in row-major logical order: what the base iterator
(spec §4.3) yields. -/
def viewElems [Zero α] (buf : List α) (v : View) : List α :=
  v.offsets.map (readD buf)

/-- Split of one axis into two views sharing the buffer
(`ArrayView::split_at` in `impl_views.rs`).  The `assert!(index <= len)` and
the panicking axis accessor become the guard (`none` models the panic); as in
the source, when `index == len` the right pointer stays at the base instead
of being advanced past the buffer. -/
def View.split_at (v : View) (axis : Nat) (index : Nat) : Option (View × View) :=
  if axis < v.rank ∧ index ≤ v.len_of axis then
    let len := v.len_of axis
    let stride := v.stride_of axis
    let right_offset := if index = len then v.offset else v.offset + (index : Int) * stride
    some ({ shape := v.shape.set axis index, strides := v.strides, offset := v.offset },
          { shape := v.shape.set axis (len - index), strides := v.strides, offset := right_offset })
  else none

/-- Modelled from the spec (§4.1; `dimension::default_strides` is not among
the provided sources): canonical row-major strides, where the last axis has
stride 1 and each preceding axis's stride is the product of all following
axis lengths. -/
def standard_strides : List Nat → List Int
  | [] => []
  | _ :: rest => ((rest.prod : Nat) : Int) :: standard_strides rest

/-- Modelled from the spec (§4.1; `dimension::is_standard_layout` is not
among the provided sources): true iff the strides equal the canonical
row-major strides of the shape. -/
def is_standard_layout (v : View) : Bool :=
  v.strides = standard_strides v.shape

/-- Contiguous-slice accessor of a view (`ArrayView::into_slice` in
`impl_views.rs`): the flat buffer run of length `len()` starting at the base
offset when the view is in standard layout, `None` otherwise. -/
def into_slice [Zero α] (buf : List α) (v : View) : Option (List α) :=
  if is_standard_layout v then
    some ((buf.drop v.offset.toNat).take v.count)
  else none

/-- Insertion of an element into a sorted list of offsets. -/
def insSorted (a : Int) : List Int → List Int
  | [] => [a]
  | b :: t => if a ≤ b then a :: b :: t else b :: insSorted a t

/-- Insertion sort of offsets (used to model memory order). -/
def insSort : List Int → List Int
  | [] => []
  | a :: t => insSorted a (insSort t)

/-- Modelled from the spec (§4.1; `min_stride_axis` is not among the provided
sources): the axis with smallest absolute stride, first such axis on ties. -/
def min_stride_axis (v : View) : Nat :=
  (List.range v.strides.length).foldl
    (fun best i =>
      if (v.strides.getD i 0).natAbs < (v.strides.getD best 0).natAbs then i else best) 0

/-- Modelled from the spec (§4.4; `as_slice_memory_order` is not among the
provided sources): the flat run of elements in memory order when the view is
contiguous in memory order, which we model as "the row-major offsets, after
sorting, are exactly the interval of length `len()` starting at the smallest
offset". -/
def as_slice_memory_order [Zero α] (buf : List α) (v : View) : Option (List α) :=
  let sorted := insSort v.offsets
  let lo := sorted.headD v.offset
  if sorted = (List.range v.count).map (fun i : Nat => lo + (i : Int)) then
    some (sorted.map (readD buf))
  else none

/-- Elements of the 1-D lane along `axis` through the reduced index `ridx`
(the per-axis lane iterator of spec §4.3, one lane). -/
def laneElems [Zero α] (buf : List α) (v : View) (axis : Nat) (ridx : List Nat) : List α :=
  (List.range (v.len_of axis)).map fun i => readD buf (offsetAt v (ridx.insertIdx axis i))

/-- Whole-array sum (`sum` in `impl_numeric.rs`): pairwise-sum the memory
order slice when one exists; otherwise, on rank > 1 with a contiguous
minimum-stride axis of length at least `UNROLL_SIZE`, sum each lane (a
stride-1 lane is contiguous, so `lane.sum()` is the slice path, i.e.
`pairwise_sum` of the lane) and combine the per-lane sums with
`pure_pairwise_sum`; otherwise fall back to the iterator-based pairwise sum
over the logical element order. -/
def sum [Zero α] [Add α] (buf : List α) (v : View) : α :=
  match as_slice_memory_order buf v with
  | some slc => pairwise_sum slc
  | none =>
    if 1 < v.rank ∧
        UNROLL_SIZE ≤ v.len_of (min_stride_axis v) ∧ v.stride_of (min_stride_axis v) = 1 then
      pure_pairwise_sum ((indices (v.shape.eraseIdx (min_stride_axis v))).map
        (fun ridx => pairwise_sum (laneElems buf v (min_stride_axis v) ridx)))
    else
      iterator_pairwise_sum (viewElems buf v)

/-- Non-recursive branches of `sum_axis` (`impl_numeric.rs`): when the
reduction axis is contiguous (stride 1), each lane is summed with the slice
path of `sum` (`pairwise_sum`); otherwise, `fold_axis` folds the axis
elements left to right into a zero accumulator (spec §4.4, the naive branch;
`fold_axis` itself is not among the provided sources). -/
def sumAxisBase [Zero α] [Add α] (buf : List α) (v : View) (axis : Nat) : List α :=
  if v.stride_of axis = 1 then
    (indices (v.shape.eraseIdx axis)).map fun ridx => pairwise_sum (laneElems buf v axis ridx)
  else
    (indices (v.shape.eraseIdx axis)).map fun ridx =>
      (laneElems buf v axis ridx).foldl (fun acc x => acc + x) 0

/-- Fuel-indexed body of `sum_axis` (`impl_numeric.rs`): contiguous axis or
axis length at most `NAIVE_SUM_THRESHOLD` reduce directly, otherwise split
the axis at `n / 2` with `split_at` and add the two recursive results
elementwise.  The fuel is an upper bound on the axis length. -/
def sumAxisGo [Zero α] [Add α] (buf : List α) (axis : Nat) : Nat → View → List α
  | 0, v => sumAxisBase buf v axis
  | fuel + 1, v =>
    let n := v.len_of axis
    if v.stride_of axis = 1 ∨ n ≤ NAIVE_SUM_THRESHOLD then
      sumAxisBase buf v axis
    else
      match v.split_at axis (n / 2) with
      | some (v1, v2) =>
          List.zipWith (fun a b => a + b) (sumAxisGo buf axis fuel v1) (sumAxisGo buf axis fuel v2)
      | none => []

/-- Axis-wise sum (`sum_axis` in `impl_numeric.rs`), row-major data of the
reduced array; the caller guards the axis bound as the Rust accessors panic
on an out-of-range axis. -/
def sum_axis [Zero α] [Add α] (buf : List α) (v : View) (axis : Nat) : List α :=
  sumAxisGo buf axis (v.len_of axis) v

/-- Axis-wise mean (`mean_axis` in `impl_numeric.rs`): the axis length is
converted to the element type with `A::from_usize` (whose `expect` panic is
the `none` of `fromUsize`), and the sum along the axis is divided elementwise
by it (the divisor is a 0-d array broadcast against the whole result, hence
the same `n` at every position). -/
def mean_axis [Zero α] [Add α] [Div α] (fromUsize : Nat → Option α)
    (buf : List α) (v : View) (axis : Nat) : Option (List α) :=
  if axis < v.rank then
    match fromUsize (v.len_of axis) with
    | none => none
    | some n => some ((sum_axis buf v axis).map fun x => x / n)
  else none

/-- One Welford update (the `azip!` body of `var_axis` in
`impl_numeric.rs`): `delta = x - mean`, then `mean += delta / count`, then
`sum_sq = (x - mean).mul_add(delta, sum_sq)` with the already-updated mean
(`mul_add` is exact here, so it is plain multiply-add). -/
def welfordStep (count x m s : ℚ) : ℚ × ℚ :=
  let delta := x - m
  let m2 := m + delta / count
  (m2, (x - m2) * delta + s)

/-- Axis-wise variance (`var_axis` in `impl_numeric.rs`) with rational
element arithmetic standing in for the exact content of the float formulas.
The `assert!(!(ddof < 0 || ddof > n))` and the panicking axis accessor are
the guards (`none` models the panic); note `ddof = n` passes the assert.
The final map is `sum_sq.mapv_into(|s| s / dof)`. -/
def var_axis (buf : List ℚ) (v : View) (axis : Nat) (ddof : ℚ) : Option (List ℚ) :=
  if axis < v.rank then
    let n : ℚ := (v.len_of axis : ℚ)
    if ddof < 0 ∨ ddof > n then none
    else
      let dof := n - ddof
      let ridxs := indices (v.shape.eraseIdx axis)
      let final := (List.range (v.len_of axis)).foldl
        (fun st i =>
          (ridxs.zip st).map fun p =>
            welfordStep ((i + 1 : Nat) : ℚ)
              (readD buf (offsetAt v (p.1.insertIdx axis i))) p.2.1 p.2.2)
        (ridxs.map fun _ => ((0 : ℚ), (0 : ℚ)))
      some (final.map fun p => p.2 / dof)
  else none

/-- Short-circuiting fold of `all_close` (the `fold_while` of spec §4.3):
stops at the first pair with `|x - y| > tol` without looking at the rest. -/
def acFold (tol : ℚ) : List (ℚ × ℚ) → Bool
  | [] => true
  | (x, y) :: rest => if |x - y| ≤ tol then acFold tol rest else false

/-- Modelled from the spec (§4.2; the broadcasting code is not among the
provided sources), axis-aligned part: equal lengths keep the stride, a
source length of 1 becomes stride 0, anything else is incompatible. -/
def broadcastAxes : List Nat → List Int → List Nat → Option (List Int)
  | [], [], [] => some []
  | s :: srest, st :: strest, t :: trest =>
    if s = t then (broadcastAxes srest strest trest).map (fun l => st :: l)
    else if s = 1 then (broadcastAxes srest strest trest).map (fun l => (0 : Int) :: l)
    else none
  | _, _, _ => none

/-- Modelled from the spec (§4.2): right-align the source shape against the
target (missing leading axes are length-1 / stride-0) and reconcile each
axis; `none` is the incompatible-shapes failure. -/
def broadcastTo (v : View) (target : List Nat) : Option View :=
  if v.rank ≤ target.length then
    let k := target.length - v.rank
    match broadcastAxes (List.replicate k 1 ++ v.shape) (List.replicate k 0 ++ v.strides) target with
    | some st => some { shape := target, strides := st, offset := v.offset }
    | none => none
  else none

/-- Elementwise tolerance comparison (`all_close` in `impl_numeric.rs`):
broadcast `rv` to the shape of `lv` (panic, i.e. `none`, when impossible),
then zip the two element streams and short-circuit on the first pair whose
difference exceeds `tol`. -/
def all_close (lbuf : List ℚ) (lv : View) (rbuf : List ℚ) (rv : View) (tol : ℚ) : Option Bool :=
  match broadcastTo rv lv.shape with
  | none => none
  | some rv2 => some (acFold tol ((viewElems lbuf lv).zip (viewElems rbuf rv2)))

/-- Element type with a deliberately non-associative, non-commutative
addition; its `Zero` is only the seed value of the folds, exactly the role
of the `A: Zero` bound in the Rust code. -/
structure Skew where
  val : Nat
deriving DecidableEq

instance : Zero Skew := ⟨⟨0⟩⟩

instance : Add Skew := ⟨fun a b => ⟨a.val + 2 * b.val⟩⟩

/-! ## Helper lemmas

Fuel-irrelevance recurrences for the divide-and-conquer sums, refinement of
the summation kernels to the plain list sum under associative-commutative
addition, and the index-space decompositions (axis split, lane
decomposition, standard-layout contiguity) used by the claim theorems.
-/

theorem foldl_add_eq [AddMonoid α] (a : α) (l : List α) :
    l.foldl (fun x y => x + y) a = a + l.sum := by
  induction l generalizing a with
  | nil => simp
  | cons x t ih => simp [ih, add_assoc]

theorem ufLoop_cons8 (f : α → α → α) (p0 p1 p2 p3 p4 p5 p6 p7 x0 x1 x2 x3 x4 x5 x6 x7 : α) (rest : List α) :
    ufLoop f (p0, p1, p2, p3, p4, p5, p6, p7) (x0 :: x1 :: x2 :: x3 :: x4 :: x5 :: x6 :: x7 :: rest) =
      ufLoop f (f p0 x0, f p1 x1, f p2 x2, f p3 x3, f p4 x4, f p5 x5, f p6 x6, f p7 x7) rest := rfl

theorem ufLoop_sum [AddCommMonoid α] (p : α × α × α × α × α × α × α × α) (xs : List α) :
    t8 (ufLoop (fun a b : α => a + b) p xs).1 + ((ufLoop (fun a b : α => a + b) p xs).2).sum = t8 p + xs.sum ∧
      (ufLoop (fun a b : α => a + b) p xs).2.length < 8 := by
  induction p, xs using ufLoop.induct (f := fun a b : α => a + b)
  case case1 p0 p1 p2 p3 p4 p5 p6 p7 x0 x1 x2 x3 x4 x5 x6 x7 rest ih =>
    rw [ufLoop_cons8]
    refine ⟨?_, ih.2⟩
    rw [ih.1]
    simp only [t8, List.sum_cons]
    abel
  case case2 p xs h =>
    have hp : p = (p.1, p.2.1, p.2.2.1, p.2.2.2.1, p.2.2.2.2.1, p.2.2.2.2.2.1, p.2.2.2.2.2.2.1, p.2.2.2.2.2.2.2) := rfl
    have heq : ufLoop (fun a b : α => a + b) p xs = (p, xs) := by
      rw [ufLoop.eq_def]
      match xs, h with
      | [], _ => rfl
      | [a], _ => rfl
      | [a,b], _ => rfl
      | [a,b,c], _ => rfl
      | [a,b,c,d], _ => rfl
      | [a,b,c,d,e], _ => rfl
      | [a,b,c,d,e,g], _ => rfl
      | [a,b,c,d,e,g,i], _ => rfl
      | a::b::c::d::e::g::i::j::rest, h =>
        exact (h p.1 p.2.1 p.2.2.1 p.2.2.2.1 p.2.2.2.2.1 p.2.2.2.2.2.1 p.2.2.2.2.2.2.1 p.2.2.2.2.2.2.2
            a b c d e g i j rest hp rfl).elim
    have hlen : xs.length < 8 := by
      match xs, h with
      | [], _ => simp
      | [a], _ => simp
      | [a,b], _ => simp
      | [a,b,c], _ => simp
      | [a,b,c,d], _ => simp
      | [a,b,c,d,e], _ => simp
      | [a,b,c,d,e,g], _ => simp
      | [a,b,c,d,e,g,i], _ => simp
      | a::b::c::d::e::g::i::j::rest, h =>
        exact (h p.1 p.2.1 p.2.2.1 p.2.2.2.1 p.2.2.2.2.1 p.2.2.2.2.2.1 p.2.2.2.2.2.2.1 p.2.2.2.2.2.2.2
            a b c d e g i j rest hp rfl).elim
    rw [heq]
    exact ⟨rfl, hlen⟩

theorem unrolled_fold_sum [AddCommMonoid α] (xs : List α) :
    unrolled_fold xs 0 (· + ·) = xs.sum := by
  have h := ufLoop_sum (0, 0, 0, 0, 0, 0, 0, 0) xs
  unfold unrolled_fold
  rcases hst : ufLoop (fun a b : α => a + b) (0, 0, 0, 0, 0, 0, 0, 0) xs with ⟨⟨p0, p1, p2, p3, p4, p5, p6, p7⟩, rem⟩
  rw [hst] at h
  simp only [t8] at h
  have hrem : rem.take 7 = rem := List.take_of_length_le (by omega)
  simp only
  rw [hrem, foldl_add_eq]
  have h1 := h.1
  simp only [add_zero, zero_add] at h1
  rw [← h1]
  abel

theorem pairwiseSumGo_succ_def [Zero α] [Add α] (fuel : Nat) (v : List α) :
    pairwiseSumGo (fuel + 1) v =
      if v.length ≤ NAIVE_SUM_THRESHOLD * UNROLL_SIZE then unrolled_fold v 0 (· + ·)
      else pairwiseSumGo fuel (v.take (v.length / 2)) +
        pairwiseSumGo fuel (v.drop (v.length / 2)) := rfl

theorem pairwiseSumGo_succ [Zero α] [Add α] :
    ∀ (fuel : Nat) (v : List α), v.length ≤ fuel →
      pairwiseSumGo (fuel + 1) v = pairwiseSumGo fuel v := by
  intro fuel
  induction fuel with
  | zero =>
    intro v h
    have hv : v = [] := List.eq_nil_of_length_eq_zero (Nat.le_zero.mp h)
    subst hv
    simp [pairwiseSumGo_succ_def, pairwiseSumGo, NAIVE_SUM_THRESHOLD, UNROLL_SIZE]
  | succ f ih =>
    intro v h
    by_cases hn : v.length ≤ NAIVE_SUM_THRESHOLD * UNROLL_SIZE
    · rw [pairwiseSumGo_succ_def, if_pos hn, pairwiseSumGo_succ_def, if_pos hn]
    · have hT : (512 : Nat) < v.length := by
        have := Nat.lt_of_not_le hn
        simpa [NAIVE_SUM_THRESHOLD, UNROLL_SIZE] using this
      rw [pairwiseSumGo_succ_def, if_neg hn]
      rw [ih (v.take (v.length / 2)) (by simp [List.length_take, List.length_cons] <;> omega),
          ih (v.drop (v.length / 2)) (by simp [List.length_drop, List.length_cons] <;> omega)]
      rw [pairwiseSumGo_succ_def, if_neg hn]

theorem pairwiseSumGo_fuel [Zero α] [Add α] (fuel : Nat) (v : List α) (h : v.length ≤ fuel) :
    pairwiseSumGo fuel v = pairwise_sum v := by
  unfold pairwise_sum
  induction fuel with
  | zero =>
    have hv : v.length = 0 := Nat.le_zero.mp h
    rw [hv]
  | succ f ih =>
    by_cases hf : v.length ≤ f
    · rw [pairwiseSumGo_succ f v hf, ih hf]
    · have hv : v.length = f + 1 := by omega
      rw [hv]

theorem pairwise_sum_rec [Zero α] [Add α] (v : List α) :
    pairwise_sum v =
      if v.length ≤ NAIVE_SUM_THRESHOLD * UNROLL_SIZE then unrolled_fold v 0 (· + ·)
      else pairwise_sum (v.take (v.length / 2)) + pairwise_sum (v.drop (v.length / 2)) := by
  rw [← pairwiseSumGo_fuel (v.length + 1) v (by omega), pairwiseSumGo_succ_def]
  by_cases hn : v.length ≤ NAIVE_SUM_THRESHOLD * UNROLL_SIZE
  · rw [if_pos hn, if_pos hn]
  · have hT : (512 : Nat) < v.length := by
      have := Nat.lt_of_not_le hn
      simpa [NAIVE_SUM_THRESHOLD, UNROLL_SIZE] using this
    rw [if_neg hn, if_neg hn]
    rw [pairwiseSumGo_fuel v.length (v.take (v.length / 2)) (by simp [List.length_take, List.length_cons] <;> omega),
        pairwiseSumGo_fuel v.length (v.drop (v.length / 2)) (by simp [List.length_drop, List.length_cons] <;> omega)]

theorem pairwise_sum_sum_aux [AddCommMonoid α] :
    ∀ (n : Nat) (v : List α), v.length ≤ n → pairwise_sum v = v.sum := by
  intro n
  induction n with
  | zero =>
    intro v h
    have hv : v = [] := List.eq_nil_of_length_eq_zero (Nat.le_zero.mp h)
    subst hv
    rw [pairwise_sum_rec]
    simp [unrolled_fold_sum]
  | succ f ih =>
    intro v h
    rw [pairwise_sum_rec]
    by_cases hn : v.length ≤ NAIVE_SUM_THRESHOLD * UNROLL_SIZE
    · simp [hn, unrolled_fold_sum]
    · have hT : (512 : Nat) < v.length := by
        have := Nat.lt_of_not_le hn
        simpa [NAIVE_SUM_THRESHOLD, UNROLL_SIZE] using this
      rw [if_neg hn]
      rw [ih (v.take (v.length / 2)) (by simp [List.length_take, List.length_cons] <;> omega),
          ih (v.drop (v.length / 2)) (by simp [List.length_drop, List.length_cons] <;> omega)]
      exact List.sum_take_add_sum_drop v _

theorem pairwise_sum_sum [AddCommMonoid α] (v : List α) : pairwise_sum v = v.sum :=
  pairwise_sum_sum_aux v.length v le_rfl

theorem purePairwiseSumGo_succ [Zero α] [Add α] :
    ∀ (fuel : Nat) (v : List α), v.length ≤ fuel →
      purePairwiseSumGo (fuel + 1) v = purePairwiseSumGo fuel v := by
  intro fuel
  induction fuel with
  | zero =>
    intro v h
    have hv : v = [] := List.eq_nil_of_length_eq_zero (Nat.le_zero.mp h)
    subst hv
    rfl
  | succ f ih =>
    intro v h
    match v with
    | [] => rfl
    | [x] => rfl
    | x :: y :: t =>
      show purePairwiseSumGo (f + 1) ((x :: y :: t).take ((x :: y :: t).length / 2)) +
            purePairwiseSumGo (f + 1) ((x :: y :: t).drop ((x :: y :: t).length / 2)) =
          purePairwiseSumGo f ((x :: y :: t).take ((x :: y :: t).length / 2)) +
            purePairwiseSumGo f ((x :: y :: t).drop ((x :: y :: t).length / 2))
      rw [ih _ (by simp only [List.length_take, List.length_cons] at h ⊢ <;> omega),
          ih _ (by simp only [List.length_drop, List.length_cons] at h ⊢ <;> omega)]

theorem purePairwiseSumGo_fuel [Zero α] [Add α] (fuel : Nat) (v : List α) (h : v.length ≤ fuel) :
    purePairwiseSumGo fuel v = pure_pairwise_sum v := by
  unfold pure_pairwise_sum
  induction fuel with
  | zero =>
    have hv : v.length = 0 := Nat.le_zero.mp h
    rw [hv]
  | succ f ih =>
    by_cases hf : v.length ≤ f
    · rw [purePairwiseSumGo_succ f v hf, ih hf]
    · have hv : v.length = f + 1 := by omega
      rw [hv]

theorem pure_pairwise_sum_nil [Zero α] [Add α] : pure_pairwise_sum ([] : List α) = 0 := rfl

theorem pure_pairwise_sum_single [Zero α] [Add α] (x : α) : pure_pairwise_sum [x] = x := rfl

theorem pure_pairwise_sum_rec [Zero α] [Add α] (x y : α) (t : List α) :
    pure_pairwise_sum (x :: y :: t) =
      pure_pairwise_sum ((x :: y :: t).take ((x :: y :: t).length / 2)) +
        pure_pairwise_sum ((x :: y :: t).drop ((x :: y :: t).length / 2)) := by
  have hlen1 : (x :: y :: t).length - 1 + 1 = (x :: y :: t).length := by simp
  have h1 : pure_pairwise_sum (x :: y :: t) =
      purePairwiseSumGo ((x :: y :: t).length - 1 + 1) (x :: y :: t) := by
    unfold pure_pairwise_sum
    rw [hlen1]
  rw [h1]
  show purePairwiseSumGo ((x :: y :: t).length - 1) ((x :: y :: t).take ((x :: y :: t).length / 2)) +
        purePairwiseSumGo ((x :: y :: t).length - 1) ((x :: y :: t).drop ((x :: y :: t).length / 2)) = _
  rw [purePairwiseSumGo_fuel _ _ (by simp [List.length_take, List.length_cons] <;> omega),
      purePairwiseSumGo_fuel _ _ (by simp [List.length_drop, List.length_cons] <;> omega)]

theorem pure_pairwise_sum_sum_aux [AddCommMonoid α] :
    ∀ (n : Nat) (v : List α), v.length ≤ n → pure_pairwise_sum v = v.sum := by
  intro n
  induction n with
  | zero =>
    intro v h
    have hv : v = [] := List.eq_nil_of_length_eq_zero (Nat.le_zero.mp h)
    subst hv
    rfl
  | succ f ih =>
    intro v h
    match v with
    | [] => rfl
    | [x] => simp [pure_pairwise_sum_single]
    | x :: y :: t =>
      rw [pure_pairwise_sum_rec]
      rw [ih _ (by simp only [List.length_take, List.length_cons] at h ⊢ <;> omega),
          ih _ (by simp only [List.length_drop, List.length_cons] at h ⊢ <;> omega)]
      exact List.sum_take_add_sum_drop _ _

theorem pure_pairwise_sum_sum [AddCommMonoid α] (v : List α) : pure_pairwise_sum v = v.sum :=
  pure_pairwise_sum_sum_aux v.length v le_rfl

theorem ips_foldl_sum [AddCommMonoid α] (l : List α) :
    ∀ (c : Nat) (acc : α) (sums : List α),
      ((l.foldl ipsStep (c, acc, sums)).2.2).sum + (l.foldl ipsStep (c, acc, sums)).2.1 =
        sums.sum + acc + l.sum := by
  induction l with
  | nil => intro c acc sums; simp
  | cons x t ih =>
    intro c acc sums
    simp only [List.foldl_cons, ipsStep]
    by_cases h : c < NAIVE_SUM_THRESHOLD
    · rw [if_pos h, ih]
      simp [add_assoc]
    · rw [if_neg h, ih]
      simp [List.sum_append]
      abel

theorem iterator_pairwise_sum_sum [AddCommMonoid α] (l : List α) :
    iterator_pairwise_sum l = l.sum := by
  unfold iterator_pairwise_sum
  rw [pure_pairwise_sum_sum]
  simp only [List.sum_append, List.sum_cons, List.sum_nil]
  have h := ips_foldl_sum l 0 0 []
  simp only [List.sum_nil, zero_add, add_zero] at h
  simpa using h

theorem cons8_of_len {l : List α} (h : 8 ≤ l.length) :
    ∃ x0 x1 x2 x3 x4 x5 x6 x7 t, l = x0 :: x1 :: x2 :: x3 :: x4 :: x5 :: x6 :: x7 :: t := by
  match l with
  | [] => simp at h
  | [a] => simp at h
  | [a, b] => simp at h
  | [a, b, c] => simp at h
  | [a, b, c, d] => simp at h
  | [a, b, c, d, e] => simp at h
  | [a, b, c, d, e, g] => simp at h
  | [a, b, c, d, e, g, i] => simp at h
  | x0 :: x1 :: x2 :: x3 :: x4 :: x5 :: x6 :: x7 :: t =>
    exact ⟨x0, x1, x2, x3, x4, x5, x6, x7, t, rfl⟩

theorem udLoop_cons8 [Add α] [Mul α] (p0 p1 p2 p3 p4 p5 p6 p7 : α)
    (x0 x1 x2 x3 x4 x5 x6 x7 y0 y1 y2 y3 y4 y5 y6 y7 : α) (xr yr : List α) :
    udLoop (p0, p1, p2, p3, p4, p5, p6, p7)
        (x0 :: x1 :: x2 :: x3 :: x4 :: x5 :: x6 :: x7 :: xr)
        (y0 :: y1 :: y2 :: y3 :: y4 :: y5 :: y6 :: y7 :: yr) =
      udLoop (p0 + x0 * y0, p1 + x1 * y1, p2 + x2 * y2, p3 + x3 * y3,
              p4 + x4 * y4, p5 + x5 * y5, p6 + x6 * y6, p7 + x7 * y7) xr yr := rfl

theorem udLoop_short [Add α] [Mul α] (p : α × α × α × α × α × α × α × α) (xs ys : List α)
    (h : xs.length < 8 ∨ ys.length < 8) :
    udLoop p xs ys = (p, xs, ys) := by
  rw [udLoop.eq_def]
  split
  · simp only [List.length_cons] at h
    omega
  · rfl

theorem udLoop_spec [AddCommMonoid α] [Mul α] (p : α × α × α × α × α × α × α × α) (xs ys : List α)
    (hlen : xs.length = ys.length) :
    t8 (udLoop p xs ys).1 +
        (List.zipWith (fun a b => a * b) (udLoop p xs ys).2.1 (udLoop p xs ys).2.2).sum =
      t8 p + (List.zipWith (fun a b => a * b) xs ys).sum ∧
      (udLoop p xs ys).2.1.length < 8 ∧
      (udLoop p xs ys).2.1.length = (udLoop p xs ys).2.2.length := by
  induction p, xs, ys using udLoop.induct
  case case1 p0 p1 p2 p3 p4 p5 p6 p7 x0 x1 x2 x3 x4 x5 x6 x7 xr y0 y1 y2 y3 y4 y5 y6 y7 yr ih =>
    have hl : xr.length = yr.length := by simpa using hlen
    obtain ⟨ih1, ih2, ih3⟩ := ih hl
    rw [udLoop_cons8]
    refine ⟨?_, ih2, ih3⟩
    rw [ih1]
    simp only [t8, List.zipWith_cons_cons, List.sum_cons]
    abel
  case case2 p xs ys h =>
    have hshort : xs.length < 8 := by
      by_contra hc
      push_neg at hc
      obtain ⟨x0, x1, x2, x3, x4, x5, x6, x7, xt, hx⟩ := cons8_of_len hc
      have hy : 8 ≤ ys.length := by omega
      obtain ⟨y0, y1, y2, y3, y4, y5, y6, y7, yt, hy2⟩ := cons8_of_len hy
      exact h p.1 p.2.1 p.2.2.1 p.2.2.2.1 p.2.2.2.2.1 p.2.2.2.2.2.1 p.2.2.2.2.2.2.1 p.2.2.2.2.2.2.2
        x0 x1 x2 x3 x4 x5 x6 x7 xt y0 y1 y2 y3 y4 y5 y6 y7 yt rfl hx hy2
  
    rw [udLoop_short p xs ys (Or.inl hshort)]
    exact ⟨rfl, hshort, hlen⟩

theorem zipWith_take_min (f : α → α → β) (xs ys : List α) :
    List.zipWith f (xs.take (min xs.length ys.length)) (ys.take (min xs.length ys.length)) =
      List.zipWith f xs ys := by
  induction xs generalizing ys with
  | nil => simp
  | cons x t ih =>
    cases ys with
    | nil => simp
    | cons y u =>
      simp only [List.length_cons]
      have hmin : min (t.length + 1) (u.length + 1) = min t.length u.length + 1 := by omega
      rw [hmin]
      simp only [List.take_succ_cons, List.zipWith_cons_cons]
      rw [ih u]

theorem unrolled_dot_spec [AddCommMonoid α] [Mul α] (xs0 ys0 : List α) :
    unrolled_dot xs0 ys0 = (List.zipWith (fun a b => a * b) xs0 ys0).sum := by
  unfold unrolled_dot
  dsimp only
  have hxy : (xs0.take (min xs0.length ys0.length)).length =
      (ys0.take (min xs0.length ys0.length)).length := by
    simp [List.length_take] <;> omega
  have h := udLoop_spec (0, 0, 0, 0, 0, 0, 0, 0)
    (xs0.take (min xs0.length ys0.length)) (ys0.take (min xs0.length ys0.length)) hxy
  rcases hst : udLoop (0, 0, 0, 0, 0, 0, 0, 0)
      (xs0.take (min xs0.length ys0.length)) (ys0.take (min xs0.length ys0.length)) with
    ⟨⟨p0, p1, p2, p3, p4, p5, p6, p7⟩, xr, yr⟩
  rw [hst] at h
  obtain ⟨h1, h2, h3⟩ := h
  dsimp only at h2 h3
  simp only [t8] at h1
  dsimp only
  have hxr : xr.take 7 = xr := List.take_of_length_le (by omega)
  have hyr : yr.take 7 = yr := List.take_of_length_le (by omega)
  rw [hxr, hyr, foldl_add_eq]
  rw [zipWith_take_min] at h1
  simp only [add_zero, zero_add] at h1
  rw [← h1]
  abel

theorem zipWith_all_eq [DecidableEq α] :
    ∀ (xs ys : List α), xs.length = ys.length →
      (((List.zipWith (fun a b => decide (a = b)) xs ys).all id = true) ↔ xs = ys) := by
  intro xs
  induction xs with
  | nil =>
    intro ys h
    cases ys with
    | nil => simp
    | cons y u => simp at h
  | cons x t ih =>
    intro ys h
    cases ys with
    | nil => simp at h
    | cons y u =>
      simp only [List.length_cons, Nat.add_right_cancel_iff] at h
      simp [List.zipWith_cons_cons, List.all_cons, ih u h, List.cons.injEq]

theorem ueLoop_spec [DecidableEq α] (xs ys : List α) (hlen : xs.length = ys.length) :
    (ueLoop xs ys = true ↔ xs = ys) := by
  induction xs, ys using ueLoop.induct
  case case1 x0 x1 x2 x3 x4 x5 x6 x7 xr y0 y1 y2 y3 y4 y5 y6 y7 yr hne =>
    have hloop : ueLoop (x0 :: x1 :: x2 :: x3 :: x4 :: x5 :: x6 :: x7 :: xr)
        (y0 :: y1 :: y2 :: y3 :: y4 :: y5 :: y6 :: y7 :: yr) = false := by
      rw [ueLoop]
      rw [if_pos hne]
    rw [hloop]
    rcases hne with h | h | h | h | h | h | h | h <;> simp [h]
  case case2 x0 x1 x2 x3 x4 x5 x6 x7 xr y0 y1 y2 y3 y4 y5 y6 y7 yr hno ih =>
    have hl : xr.length = yr.length := by simpa using hlen
    have hloop : ueLoop (x0 :: x1 :: x2 :: x3 :: x4 :: x5 :: x6 :: x7 :: xr)
        (y0 :: y1 :: y2 :: y3 :: y4 :: y5 :: y6 :: y7 :: yr) = ueLoop xr yr := by
      rw [ueLoop]
      rw [if_neg hno]
    rw [hloop]
    push_neg at hno
    obtain ⟨e0, e1, e2, e3, e4, e5, e6, e7⟩ := hno
    subst e0; subst e1; subst e2; subst e3; subst e4; subst e5; subst e6; subst e7
    simp [ih hl]
  case case3 xs ys h =>
    rw [ueLoop.eq_def]
    split
    · exact (h _ _ _ _ _ _ _ _ _ _ _ _ _ _ _ _ _ _ rfl rfl).elim
    · exact zipWith_all_eq xs ys hlen

theorem unrolled_eq_spec [DecidableEq α] (xs0 ys0 : List α) :
    (unrolled_eq xs0 ys0 = true ↔
      xs0.take (min xs0.length ys0.length) = ys0.take (min xs0.length ys0.length)) := by
  unfold unrolled_eq
  exact ueLoop_spec _ _ (by simp [List.length_take] <;> omega)

theorem length_of_mem_indices : ∀ {shape : List Nat} {idx : List Nat},
    idx ∈ indices shape → idx.length = shape.length := by
  intro shape
  induction shape with
  | nil => intro idx h; simp [indices] at h; simp [h]
  | cons n rest ih =>
    intro idx h
    simp only [indices, List.mem_flatMap, List.mem_map, List.mem_range] at h
    obtain ⟨i, _, t, ht, rfl⟩ := h
    simp [ih ht]

theorem indices_length : ∀ (shape : List Nat), (indices shape).length = shape.prod := by
  intro shape
  induction shape with
  | nil => rfl
  | cons n rest ih =>
    simp only [indices, List.length_flatMap, List.map_map, Function.comp_def,
      List.length_map, ih]
    simp [List.map_const', List.sum_replicate, smul_eq_mul, List.prod_cons]

theorem sum_flatMap {M : Type v} [AddCommMonoid M] (l : List A) (f : A → List M) :
    (l.flatMap f).sum = (l.map fun a => (f a).sum).sum := by
  induction l with
  | nil => simp
  | cons a t ih => simp [List.flatMap_cons, ih]

theorem sum_map_swap {M : Type v} [AddCommMonoid M] (l1 : List A) (l2 : List B)
    (f : A → B → M) :
    (l1.map fun a => (l2.map (f a)).sum).sum = (l2.map fun b => (l1.map (fun a => f a b)).sum).sum := by
  induction l1 with
  | nil => simp
  | cons a t ih =>
    simp only [List.map_cons, List.sum_cons, ih, ← List.sum_map_add]

theorem flatMap_cons_perm (l : List B) (g : B → C) (h : B → List C) :
    (l.flatMap fun b => g b :: h b).Perm (l.map g ++ l.flatMap h) := by
  induction l with
  | nil => simp
  | cons b t ih =>
    simp only [List.flatMap_cons, List.map_cons, List.cons_append]
    rw [← Multiset.coe_eq_coe] at ih ⊢
    simp only [← Multiset.coe_add, ← Multiset.cons_coe, ih]
    abel

theorem flatMap_map_swap_perm (l1 : List A) (l2 : List B) (f : A → B → C) :
    (l1.flatMap fun a => l2.map (f a)).Perm (l2.flatMap fun b => l1.map (fun a => f a b)) := by
  induction l1 with
  | nil => simp
  | cons a t ih =>
    simp only [List.flatMap_cons]
    have hc := flatMap_cons_perm l2 (f a) (fun b => t.map (fun x => f x b))
    rw [← Multiset.coe_eq_coe] at ih hc ⊢
    simp only [List.map_cons] at hc ⊢
    simp only [← Multiset.coe_add, ← Multiset.cons_coe, ih, hc]
    try abel

theorem flatMap_perm_congr (l : List A) (f g : A → List C)
    (h : ∀ a ∈ l, (f a).Perm (g a)) :
    (l.flatMap f).Perm (l.flatMap g) := by
  induction l with
  | nil => simp
  | cons a t ih =>
    simp only [List.flatMap_cons]
    exact (h a (by simp)).append (ih fun x hx => h x (by simp [hx]))

theorem flatMap_append_perm (l : List A) (f g : A → List C) :
    (l.flatMap fun a => f a ++ g a).Perm (l.flatMap f ++ l.flatMap g) := by
  induction l with
  | nil => simp
  | cons a t ih =>
    simp only [List.flatMap_cons]
    rw [← Multiset.coe_eq_coe] at ih ⊢
    simp only [← Multiset.coe_add, ih]
    abel

theorem indices_split_perm :
    ∀ (ax : Nat) (shape : List Nat) (k : Nat), ax < shape.length → k ≤ shape.getD ax 0 →
      (indices shape).Perm
        (indices (shape.set ax k) ++
          (indices (shape.set ax (shape.getD ax 0 - k))).map
            (fun idx => idx.set ax (idx.getD ax 0 + k))) := by
  intro ax
  induction ax with
  | zero =>
    intro shape k hax hk
    match shape with
    | n :: rest =>
      simp only [List.getD_cons_zero] at hk
      simp only [indices, List.set_cons_zero, List.getD_cons_zero]
      have hrange : List.range n = List.range k ++ (List.range (n - k)).map (k + ·) := by
        rw [← List.range_add]
        congr 1
        omega
      rw [hrange, List.flatMap_append, List.flatMap_map]
      have hmap : ∀ i : Nat,
          ((indices rest).map (fun x => (k + i) :: x)) =
            ((indices rest).map (fun x => i :: x)).map
              (fun idx => idx.set 0 (idx.getD 0 0 + k)) := by
        intro i
        rw [List.map_map]
        refine List.map_congr_left fun idx _ => ?_
        simp [Function.comp, Nat.add_comm]
      refine List.Perm.append_left _ ?_
      rw [List.map_flatMap]
      simp only [hmap]
      exact List.Perm.refl _
  | succ ax ih =>
    intro shape k hax hk
    match shape with
    | n :: rest =>
      simp only [List.length_cons, Nat.succ_lt_succ_iff] at hax
      simp only [List.getD_cons_succ] at hk
      simp only [indices, List.set_cons_succ, List.getD_cons_succ]
      have hrest := ih rest k hax hk
      refine List.Perm.trans (flatMap_perm_congr _ _ _ (fun i _ => hrest.map (i :: ·))) ?_
      simp only [List.map_append, List.map_map]
      refine List.Perm.trans (flatMap_append_perm _ _ _) ?_
      refine List.Perm.append_left _ ?_
      rw [List.map_flatMap]
      have hpt : ∀ i : Nat,
          (indices (rest.set ax (rest.getD ax 0 - k))).map
              ((fun idx => idx.set (ax + 1) (idx.getD (ax + 1) 0 + k)) ∘ (fun x => i :: x)) =
            ((indices (rest.set ax (rest.getD ax 0 - k))).map
              ((fun x => i :: x) ∘ (fun idx => idx.set ax (idx.getD ax 0 + k)))) := by
        intro i
        refine List.map_congr_left fun idx _ => ?_
        simp [Function.comp, List.set_cons_succ, List.getD_cons_succ]
      simp only [List.map_map, hpt]
      exact List.Perm.refl _

theorem offAux_set :
    ∀ (ax : Nat) (strides : List Int) (idx : List Nat) (z : Nat),
      ax < idx.length → ax < strides.length →
      offAux strides (idx.set ax z) + (idx.getD ax 0 : Int) * strides.getD ax 0 =
        offAux strides idx + (z : Int) * strides.getD ax 0 := by
  intro ax
  induction ax with
  | zero =>
    intro strides idx z h1 h2
    match idx, strides with
    | i :: it, s :: st =>
      simp only [offAux, List.set_cons_zero, List.zipWith_cons_cons, List.sum_cons,
        List.getD_cons_zero]
      ring
  | succ ax ih =>
    intro strides idx z h1 h2
    match idx, strides with
    | i :: it, s :: st =>
      simp only [offAux, List.set_cons_succ, List.zipWith_cons_cons, List.sum_cons,
        List.getD_cons_succ]
      have h := ih st it z (by simpa using h1) (by simpa using h2)
      simp only [offAux] at h
      linear_combination h

theorem flatMap_congr {l : List A} {f g : A → List B} (h : ∀ a ∈ l, f a = g a) :
    l.flatMap f = l.flatMap g := by
  induction l with
  | nil => simp
  | cons a t ih =>
    simp only [List.flatMap_cons]
    rw [h a (by simp), ih fun x hx => h x (by simp [hx])]

theorem indices_set_zero (shape : List Nat) (ax : Nat) (hax : ax < shape.length) :
    indices (shape.set ax 0) = [] := by
  have hax2 : ax < (shape.set ax 0).length := by simpa [List.length_set] using hax
  have h0 : (shape.set ax 0)[ax] = 0 := List.getElem_set_self hax2
  have hmem : (0 : Nat) ∈ shape.set ax 0 := by
    have hm := List.getElem_mem hax2
    rwa [h0] at hm
  have hlen : (indices (shape.set ax 0)).length = 0 := by
    rw [indices_length]
    exact List.prod_eq_zero hmem
  exact List.eq_nil_of_length_eq_zero hlen

theorem indices_insert_perm :
    ∀ (ax : Nat) (shape : List Nat), ax < shape.length →
      (indices shape).Perm
        ((indices (shape.eraseIdx ax)).flatMap
          (fun r => (List.range (shape.getD ax 0)).map (fun i => r.insertIdx ax i))) := by
  intro ax
  induction ax with
  | zero =>
    intro shape hax
    match shape with
    | n :: rest =>
      simp only [indices, List.eraseIdx_cons_zero, List.getD_cons_zero, List.insertIdx_zero]
      exact flatMap_map_swap_perm (List.range n) (indices rest) (fun i r => i :: r)
  | succ ax ih =>
    intro shape hax
    match shape with
    | n :: rest =>
      simp only [indices, List.eraseIdx_cons_succ, List.getD_cons_succ]
      refine List.Perm.trans
        (flatMap_perm_congr _ _ _ (fun i _ => (ih rest (by simpa using hax)).map (i :: ·))) ?_
      have heq : ((List.range n).flatMap fun i =>
            ((indices (rest.eraseIdx ax)).flatMap
              (fun r => (List.range (rest.getD ax 0)).map (fun t => r.insertIdx ax t))).map
              (fun x => i :: x)) =
          ((List.range n).flatMap fun j =>
            ((indices (rest.eraseIdx ax)).map (fun x => j :: x)).flatMap
              (fun r => (List.range (rest.getD ax 0)).map (fun t => r.insertIdx (ax + 1) t))) := by
        refine flatMap_congr fun j _ => ?_
        rw [List.map_flatMap, List.flatMap_map]
        refine flatMap_congr fun r _ => ?_
        simp [List.map_map, Function.comp, List.insertIdx_succ_cons]
      rw [heq, ← List.flatMap_assoc]

theorem offAux_cons (s : Int) (st : List Int) (i : Nat) (idx : List Nat) :
    offAux (s :: st) (i :: idx) = (i : Int) * s + offAux st idx := by
  simp [offAux, List.zipWith_cons_cons]

theorem range_flatMap_blocks (o : Int) (P : Nat) :
    ∀ (n : Nat),
      (List.range n).flatMap (fun i => (List.range P).map (fun j : Nat => o + ((i : Int) * P + (j : Int)))) =
        (List.range (n * P)).map (fun t : Nat => o + (t : Int)) := by
  intro n
  induction n with
  | zero => simp
  | succ n ih =>
    rw [List.range_succ, List.flatMap_append, ih]
    have hmul : (n + 1) * P = n * P + P := by ring
    rw [hmul, List.range_add, List.map_append]
    congr 1
    simp only [List.flatMap_cons, List.flatMap_nil, List.append_nil, List.map_map]
    refine List.map_congr_left fun j hj => ?_
    simp only [Function.comp_apply]
    push_cast
    ring

theorem offsets_standard :
    ∀ (shape : List Nat) (o : Int),
      (indices shape).map (fun idx => o + offAux (standard_strides shape) idx) =
        (List.range shape.prod).map (fun i : Nat => o + (i : Int)) := by
  intro shape
  induction shape with
  | nil =>
    intro o
    have h1 : List.range 1 = [0] := rfl
    simp [indices, offAux, h1]
  | cons n rest ih =>
    intro o
    simp only [indices, standard_strides, List.map_flatMap]
    have hinner : ∀ i : Nat,
        ((indices rest).map (fun x => i :: x)).map
            (fun idx => o + offAux (((rest.prod : Nat) : Int) :: standard_strides rest) idx) =
          (List.range rest.prod).map (fun j : Nat => o + ((i : Int) * rest.prod + (j : Int))) := by
      intro i
      rw [List.map_map]
      have hcomp : ((fun idx => o + offAux (((rest.prod : Nat) : Int) :: standard_strides rest) idx)
            ∘ (fun x => i :: x)) =
          fun idx => (o + (i : Int) * rest.prod) + offAux (standard_strides rest) idx := by
        funext idx
        simp [Function.comp, offAux_cons]
        ring
      rw [hcomp, ih (o + (i : Int) * rest.prod)]
      refine List.map_congr_left fun j hj => ?_
      ring
    calc ((List.range n).flatMap fun a =>
            ((indices rest).map (fun x => a :: x)).map
              (fun idx => o + offAux (((rest.prod : Nat) : Int) :: standard_strides rest) idx))
        = (List.range n).flatMap fun i =>
            (List.range rest.prod).map (fun j : Nat => o + ((i : Int) * rest.prod + (j : Int))) :=
          flatMap_congr fun i _ => hinner i
      _ = (List.range (n * rest.prod)).map (fun t : Nat => o + (t : Int)) :=
          range_flatMap_blocks o rest.prod n
      _ = (List.range ((n :: rest).prod)).map (fun t : Nat => o + (t : Int)) := by
          rw [List.prod_cons]

theorem drop_take_eq_map_getD [Zero α] (buf : List α) (d c : Nat) (h : d + c ≤ buf.length) :
    (buf.drop d).take c = (List.range c).map (fun i => buf.getD (d + i) 0) := by
  refine List.ext_getElem ?_ ?_
  · simp [List.length_take, List.length_drop]
    omega
  · intro i h1 h2
    have hi : i < c := by simpa using h2
    have hd : d + i < buf.length := by omega
    rw [List.getElem_take, List.getElem_drop]
    simp only [List.getElem_map, List.getElem_range]
    rw [List.getD_eq_getElem _ _ hd]

theorem insSorted_perm (a : Int) (l : List Int) : (insSorted a l).Perm (a :: l) := by
  induction l with
  | nil => simp [insSorted]
  | cons b t ih =>
    simp only [insSorted]
    split
    · exact List.Perm.refl _
    · exact (ih.cons b).trans (List.Perm.swap a b t)

theorem insSort_perm (l : List Int) : (insSort l).Perm l := by
  induction l with
  | nil => simp [insSort]
  | cons a t ih => exact (insSorted_perm a (insSort t)).trans (ih.cons a)

theorem as_slice_memory_order_perm [Zero α] (buf : List α) (v : View) (slc : List α)
    (h : as_slice_memory_order buf v = some slc) : slc.Perm (viewElems buf v) := by
  unfold as_slice_memory_order at h
  dsimp only at h
  split at h
  · rw [Option.some.injEq] at h
    subst h
    exact (insSort_perm v.offsets).map (readD buf)
  · exact absurd h (by simp)

theorem lt_length_of_getD_pos {l : List Nat} {i : Nat} (h : 0 < l.getD i 0) : i < l.length := by
  by_contra hc
  push_neg at hc
  rw [List.getD_eq_default _ _ hc] at h
  exact absurd h (by simp)

theorem viewElems_lane_sum [AddCommMonoid α] (buf : List α) (v : View) (ax : Nat)
    (hax : ax < v.shape.length) :
    (viewElems buf v).sum =
      ((indices (v.shape.eraseIdx ax)).map fun ridx => (laneElems buf v ax ridx).sum).sum := by
  unfold viewElems View.offsets
  rw [List.map_map]
  have hperm := (indices_insert_perm ax v.shape hax).map (readD buf ∘ offsetAt v)
  rw [hperm.sum_eq, List.map_flatMap, sum_flatMap]
  congr 1
  refine List.map_congr_left fun ridx _ => ?_
  unfold laneElems
  rw [List.map_map]
  rfl

theorem sum_eq_list_sum [AddCommMonoid α] (buf : List α) (v : View) :
    sum buf v = (viewElems buf v).sum := by
  unfold sum
  rcases hmo : as_slice_memory_order buf v with _ | slc
  · dsimp only
    by_cases hbr : 1 < v.rank ∧
        UNROLL_SIZE ≤ v.len_of (min_stride_axis v) ∧ v.stride_of (min_stride_axis v) = 1
    · rw [if_pos hbr, pure_pairwise_sum_sum]
      have hax : min_stride_axis v < v.shape.length := by
        refine lt_length_of_getD_pos (l := v.shape) (i := min_stride_axis v) ?_
        have h8 := hbr.2.1
        simp only [View.len_of, UNROLL_SIZE] at h8
        exact Nat.lt_of_lt_of_le (by omega) h8
      rw [show ((indices (v.shape.eraseIdx (min_stride_axis v))).map
            fun ridx => pairwise_sum (laneElems buf v (min_stride_axis v) ridx)) =
          ((indices (v.shape.eraseIdx (min_stride_axis v))).map
            fun ridx => (laneElems buf v (min_stride_axis v) ridx).sum) from
          List.map_congr_left fun ridx _ => pairwise_sum_sum _]
      exact (viewElems_lane_sum buf v _ hax).symm
    · rw [if_neg hbr, iterator_pairwise_sum_sum]
  · dsimp only
    rw [pairwise_sum_sum, (as_slice_memory_order_perm buf v slc hmo).sum_eq]

theorem split_at_eq (v : View) (axis index : Nat)
    (hax : axis < v.rank) (hidx : index ≤ v.len_of axis) :
    v.split_at axis index = some
      ({ shape := v.shape.set axis index, strides := v.strides, offset := v.offset },
       { shape := v.shape.set axis (v.len_of axis - index), strides := v.strides,
         offset := if index = v.len_of axis then v.offset
                   else v.offset + (index : Int) * v.stride_of axis }) := by
  unfold View.split_at
  rw [if_pos ⟨hax, hidx⟩]

theorem split_at_offsets_perm (v : View) (axis index : Nat)
    (hax : axis < v.rank) (hidx : index ≤ v.len_of axis)
    (hstr : v.strides.length = v.shape.length)
    (l r : View) (h : v.split_at axis index = some (l, r)) :
    v.offsets.Perm (l.offsets ++ r.offsets) := by
  rw [split_at_eq v axis index hax hidx, Option.some.injEq, Prod.mk.injEq] at h
  obtain ⟨hl, hr⟩ := h
  have hax2 : axis < v.shape.length := by simpa [View.rank] using hax
  have hidx2 : index ≤ v.shape.getD axis 0 := by simpa [View.len_of] using hidx
  have hperm := (indices_split_perm axis v.shape index hax2 hidx2).map (offsetAt v)
  unfold View.offsets
  refine hperm.trans ?_
  rw [List.map_append]
  refine List.Perm.append ?_ ?_
  · subst hl
    exact List.Perm.refl _
  · rw [List.map_map]
    subst hr
    by_cases hend : index = v.len_of axis
    · have h0 : v.shape.getD axis 0 - index = 0 := by
        simp only [View.len_of] at hend
        omega
      simp only [View.len_of]
      rw [h0, indices_set_zero v.shape axis hax2]
      simp
    · refine List.Perm.of_eq ?_
      refine List.map_congr_left fun idx hidxmem => ?_
      have hlen : idx.length = v.shape.length := by
        have := length_of_mem_indices hidxmem
        simpa [List.length_set] using this
      have haxi : axis < idx.length := by omega
      have haxs : axis < v.strides.length := by omega
      
      have hset := offAux_set axis v.strides idx (idx.getD axis 0 + index) haxi haxs
      simp only [Function.comp_apply, offsetAt]
      simp only [View.stride_of, if_neg hend]
      push_cast at hset
      have : offAux v.strides (idx.set axis (idx.getD axis 0 + index)) =
          offAux v.strides idx + (index : Int) * v.strides.getD axis 0 := by
        linear_combination hset
      rw [this]
      ring

theorem is_standard_layout_offsets (v : View) (h : is_standard_layout v = true) :
    v.offsets = (List.range v.count).map (fun i : Nat => v.offset + (i : Int)) := by
  unfold is_standard_layout at h
  rw [decide_eq_true_eq] at h
  unfold View.offsets View.count
  calc (indices v.shape).map (offsetAt v)
      = (indices v.shape).map (fun idx => v.offset + offAux (standard_strides v.shape) idx) := by
        refine List.map_congr_left fun idx _ => ?_
        simp [offsetAt, h]
    _ = (List.range v.shape.prod).map (fun i : Nat => v.offset + (i : Int)) :=
        offsets_standard v.shape v.offset

theorem into_slice_spec [Zero α] (buf : List α) (v : View) :
    ((into_slice buf v).isSome = true ↔ is_standard_layout v = true) ∧
      (∀ s, into_slice buf v = some s →
        0 ≤ v.offset → v.offset.toNat + v.count ≤ buf.length →
          s.length = v.count ∧ s = viewElems buf v) := by
  constructor
  · unfold into_slice
    split
    · simp [*]
    · simp [*]
  · intro s hs h0 hbound
    unfold into_slice at hs
    split at hs
    · rename_i hstd
      rw [Option.some.injEq] at hs
      subst hs
      constructor
      · simp [List.length_take, List.length_drop]
        omega
      · rw [drop_take_eq_map_getD buf _ _ hbound]
        unfold viewElems
        rw [is_standard_layout_offsets v hstd, List.map_map]
        refine List.map_congr_left fun i hi => ?_
        simp only [Function.comp_apply, readD]
        congr 1
        omega
    · exact absurd hs (by simp)

theorem acFold_true_iff (tol : ℚ) :
    ∀ (l : List (ℚ × ℚ)), (acFold tol l = true ↔ ∀ p ∈ l, |p.1 - p.2| ≤ tol) := by
  intro l
  induction l with
  | nil => simp [acFold]
  | cons p t ih =>
    match p with
    | (x, y) =>
      simp only [acFold]
      split
      · rename_i hle
        simp [ih, hle]
      · rename_i hgt
        simp only [Bool.false_eq_true, false_iff]
        intro hall
        exact hgt (hall (x, y) (by simp))

theorem acFold_shortcircuit (tol : ℚ) :
    ∀ (pre : List (ℚ × ℚ)) (x y : ℚ) (post : List (ℚ × ℚ)),
      (∀ p ∈ pre, |p.1 - p.2| ≤ tol) → tol < |x - y| →
        acFold tol (pre ++ (x, y) :: post) = false := by
  intro pre
  induction pre with
  | nil =>
    intro x y post _ hxy
    simp only [List.nil_append, acFold]
    rw [if_neg (by linarith)]
  | cons p t ih =>
    intro x y post hpre hxy
    match p with
    | (a, b) =>
      simp only [List.cons_append, acFold]
      rw [if_pos (hpre (a, b) (by simp))]
      exact ih x y post (fun q hq => hpre q (by simp [hq])) hxy

theorem broadcastAxes_self :
    ∀ (shape : List Nat) (strides : List Int), strides.length = shape.length →
      broadcastAxes shape strides shape = some strides := by
  intro shape
  induction shape with
  | nil =>
    intro strides h
    match strides with
    | [] => rfl
  | cons n rest ih =>
    intro strides h
    match strides with
    | st :: strest =>
      simp only [broadcastAxes, if_pos rfl]
      rw [ih strest (by simpa using h)]
      rfl

theorem broadcastTo_self (v : View) (hstr : v.strides.length = v.shape.length) :
    broadcastTo v v.shape = some v := by
  unfold broadcastTo
  rw [if_pos (show v.rank ≤ v.shape.length from le_of_eq rfl)]
  simp only [View.rank, Nat.sub_self, List.replicate_zero, List.nil_append]
  rw [broadcastAxes_self v.shape v.strides hstr]

theorem acFold_zip_self (l : List ℚ) : acFold 0 (l.zip l) = true := by
  induction l with
  | nil => rfl
  | cons x t ih =>
    simp only [List.zip_cons_cons, acFold]
    rw [if_pos (by simp)]
    exact ih

/-! ## Claim theorems -/

/-- C1: `var_axis` on the 3-by-2 array with rows [1,2],[3,4],[5,6] along axis
0 with `ddof = 1` returns exactly [4,4]; and each Welford step computes
`delta = x - old_mean`, updates the mean to `old_mean + delta / count`, and
adds `delta * (x - updated_mean)` to the sum of squares, the second factor
using the already-updated mean. -/
theorem var_axis_welford :
    var_axis [1, 2, 3, 4, 5, 6] (View.mk [3, 2] [2, 1] 0) 0 1 = some [4, 4] ∧
      ∀ count x m s : ℚ,
        welfordStep count x m s =
          (m + (x - m) / count, s + (x - m) * (x - (m + (x - m) / count))) := by
  constructor
  · simp [var_axis, View.len_of, View.rank, indices, welfordStep, readD, offsetAt, offAux,
      List.range_succ]
    norm_num
  · intro count x m s
    simp only [welfordStep, Prod.mk.injEq]
    refine ⟨by trivial, by ring⟩

/-- C2, counterexample: `var_axis` with `ddof` equal to the axis length (3
for this array) is accepted and returns a value, where the claim demands a
panic. -/
theorem var_axis_ddof_eq_n_cex :
    (var_axis [1, 2, 3, 4, 5, 6] (View.mk [3, 2] [2, 1] 0) 0 3).isSome = true := by
  simp [var_axis, View.len_of, View.rank]

/-- C2, amended: `var_axis(axis, ddof)` panics exactly when the axis is out
of range, `ddof < 0`, or `ddof > n`; every `ddof` in the closed interval
`[0, n]` — including `ddof = n` — is accepted. -/
theorem var_axis_panics_iff (buf : List ℚ) (v : View) (axis : Nat) (ddof : ℚ) :
    var_axis buf v axis ddof = none ↔
      v.rank ≤ axis ∨ ddof < 0 ∨ (v.len_of axis : ℚ) < ddof := by
  unfold var_axis
  split
  · rename_i hax
    dsimp only
    split
    · rename_i hd
      simp only [true_iff]
      rcases hd with hd | hd
      · exact Or.inr (Or.inl hd)
      · exact Or.inr (Or.inr hd)
    · rename_i hd
      push_neg at hd
      simp only [Option.some_ne_none, false_iff]
      push_neg
      exact ⟨by omega, hd.1, hd.2⟩
  · rename_i hax
    simp only [true_iff]
    exact Or.inl (by omega)

/-- C3, counterexample: at exactly `n = NAIVE_SUM_THRESHOLD * UNROLL_SIZE =
512` elements — a count that is not below the threshold — `pairwise_sum`
still returns the unrolled fold of the whole slice and does not split, so
for an addition where the two results differ (a non-associative one
distinguishes the two reduction trees) the claim's required value is not
returned. -/
theorem pairwise_sum_threshold_cex :
    (List.replicate 512 (Skew.mk 1)).length = NAIVE_SUM_THRESHOLD * UNROLL_SIZE ∧
      pairwise_sum (List.replicate 512 (Skew.mk 1)) =
        unrolled_fold (List.replicate 512 (Skew.mk 1)) 0 (· + ·) ∧
      pairwise_sum (List.replicate 512 (Skew.mk 1)) ≠
        pairwise_sum ((List.replicate 512 (Skew.mk 1)).take 256) +
          pairwise_sum ((List.replicate 512 (Skew.mk 1)).drop 256) := by
  refine ⟨by decide, by decide, by decide⟩

/-- C3, amended: `pairwise_sum` returns the unrolled-fold sum exactly when
`n` is at or below the threshold `NAIVE_SUM_THRESHOLD * UNROLL_SIZE = 512`
(the source's `n <= threshold` test), and otherwise splits the slice at the
midpoint `n / 2` and returns the sum of the recursive pairwise sums of the
two halves. -/
theorem pairwise_sum_threshold_spec {α : Type} [Zero α] [Add α] (v : List α) :
    pairwise_sum v =
      if v.length ≤ NAIVE_SUM_THRESHOLD * UNROLL_SIZE then unrolled_fold v 0 (· + ·)
      else pairwise_sum (v.take (v.length / 2)) + pairwise_sum (v.drop (v.length / 2)) :=
  pairwise_sum_rec v

/-- C4, counterexample: splitting the one-axis view of length 2 at
`index = len = 2` keeps the right view's base offset at 0, where the claim
demands it be advanced by `index * stride = 2`. -/
theorem split_at_right_offset_cex :
    ((View.mk [2] [1] 0).split_at 0 2).map (fun p => p.2.offset) = some 0 ∧
      (View.mk [2] [1] 0).offset + (2 : Int) * (View.mk [2] [1] 0).stride_of 0 = 2 := by
  refine ⟨by decide, by decide⟩

/-- C4, amended: for every view with equally many strides as axes, every
axis in range and every `index ≤ len[axis]`, `split_at` returns a left view
covering positions `[0, index)` and a right view covering `[index, len)`
along the axis, the right view's base offset advanced by `index *
stride[axis]` whenever `index < len` (at `index = len` the right view is
empty and, as in the source, keeps the unadvanced base pointer), the two
views together covering every element position of the original exactly once;
for `index > len[axis]` the operation panics. -/
theorem split_at_spec (v : View) (axis index : Nat)
    (hax : axis < v.rank) (hidx : index ≤ v.len_of axis)
    (hstr : v.strides.length = v.shape.length) :
    ∃ l r, v.split_at axis index = some (l, r) ∧
      l.shape = v.shape.set axis index ∧
      r.shape = v.shape.set axis (v.len_of axis - index) ∧
      l.strides = v.strides ∧ r.strides = v.strides ∧ l.offset = v.offset ∧
      (index < v.len_of axis → r.offset = v.offset + (index : Int) * v.stride_of axis) ∧
      (index = v.len_of axis → r.offset = v.offset ∧ r.count = 0) ∧
      v.offsets.Perm (l.offsets ++ r.offsets) ∧
      ∀ j, v.len_of axis < j → v.split_at axis j = none := by
  refine ⟨_, _, split_at_eq v axis index hax hidx, rfl, rfl, rfl, rfl, rfl, ?_, ?_, ?_, ?_⟩
  · intro hlt
    simp only [if_neg (by omega : ¬ index = v.len_of axis)]
  · intro heq
    refine ⟨by simp only [if_pos heq], ?_⟩
    have hax2 : axis < v.shape.length := by simpa [View.rank] using hax
    simp only [View.count]
    have h0 : v.len_of axis - index = 0 := by omega
    rw [h0]
    have hax3 : axis < (v.shape.set axis 0).length := by simpa [List.length_set] using hax2
    have hz : (v.shape.set axis 0)[axis] = 0 := List.getElem_set_self hax3
    refine List.prod_eq_zero ?_
    have hm := List.getElem_mem hax3
    rwa [hz] at hm
  · exact split_at_offsets_perm v axis index hax hidx hstr _ _
      (split_at_eq v axis index hax hidx)
  · intro j hj
    unfold View.split_at
    rw [if_neg]
    intro hcon
    omega

/-- C4, witness. -/
theorem split_at_spec_witness :
    ∃ l r, (View.mk [2, 3] [3, 1] 0).split_at 1 2 = some (l, r) ∧
      l.shape = [2, 2] ∧ r.shape = [2, 1] ∧
      l.strides = [3, 1] ∧ r.strides = [3, 1] ∧ l.offset = 0 ∧
      (2 < 3 → r.offset = 0 + (2 : Int) * 1) ∧
      ((2 : Nat) = 3 → r.offset = 0 ∧ r.count = 0) ∧
      (View.mk [2, 3] [3, 1] 0).offsets.Perm (l.offsets ++ r.offsets) ∧
      (∀ j, 3 < j → (View.mk [2, 3] [3, 1] 0).split_at 1 j = none) :=
  split_at_spec (View.mk [2, 3] [3, 1] 0) 1 2 (by decide) (by decide) (by decide)

/-- C5: `all_close` panics (here: `none`) exactly when the right operand
does not broadcast to the left operand's shape; on success it returns true
iff every paired element satisfies `|x - y| ≤ tol`; the underlying fold
short-circuits — once a prefix of in-tolerance pairs is followed by a pair
with `|x - y| > tol` the result is false and independent of everything after
that pair; and an array compared against itself at `tol = 0` yields true. -/
theorem all_close_spec :
    (∀ (lbuf : List ℚ) (lv : View) (rbuf : List ℚ) (rv : View) (tol : ℚ),
        all_close lbuf lv rbuf rv tol = none ↔ broadcastTo rv lv.shape = none) ∧
      (∀ (lbuf : List ℚ) (lv : View) (rbuf : List ℚ) (rv rv2 : View) (tol : ℚ),
        broadcastTo rv lv.shape = some rv2 →
          (all_close lbuf lv rbuf rv tol = some true ↔
            ∀ p ∈ (viewElems lbuf lv).zip (viewElems rbuf rv2), |p.1 - p.2| ≤ tol)) ∧
      (∀ (tol : ℚ) (pre : List (ℚ × ℚ)) (x y : ℚ) (post post2 : List (ℚ × ℚ)),
        (∀ p ∈ pre, |p.1 - p.2| ≤ tol) → tol < |x - y| →
          acFold tol (pre ++ (x, y) :: post) = false ∧
            acFold tol (pre ++ (x, y) :: post) = acFold tol (pre ++ (x, y) :: post2)) ∧
      (∀ (buf : List ℚ) (v : View), v.strides.length = v.shape.length →
        all_close buf v buf v 0 = some true) := by
  refine ⟨?_, ?_, ?_, ?_⟩
  · intro lbuf lv rbuf rv tol
    unfold all_close
    rcases hb : broadcastTo rv lv.shape with _ | rv2 <;> simp
  · intro lbuf lv rbuf rv rv2 tol hb
    unfold all_close
    rw [hb]
    simp only [Option.some.injEq]
    exact acFold_true_iff tol _
  · intro tol pre x y post post2 hpre hxy
    exact ⟨acFold_shortcircuit tol pre x y post hpre hxy,
      (acFold_shortcircuit tol pre x y post hpre hxy).trans
        (acFold_shortcircuit tol pre x y post2 hpre hxy).symm⟩
  · intro buf v hstr
    unfold all_close
    rw [broadcastTo_self v hstr]
    simp only [Option.some.injEq]
    exact acFold_zip_self _

/-- C5, witness. -/
theorem all_close_spec_witness :
    all_close [1, 2] (View.mk [2] [1] 0) [1, 2] (View.mk [2] [1] 0) 0 = some true :=
  all_close_spec.2.2.2 [1, 2] (View.mk [2] [1] 0) rfl

/-- C6: `mean_axis` equals `sum_axis` divided elementwise by the axis length
converted to the element type, panics when that conversion fails, and on
[[1,2,3],[4,5,6]] yields [2.5,3.5,4.5] along axis 0 and [2,5] along axis
1. -/
theorem mean_axis_spec :
    mean_axis (fun k => some ((k : ℚ))) [1, 2, 3, 4, 5, 6] (View.mk [2, 3] [3, 1] 0) 0 =
        some [5/2, 7/2, 9/2] ∧
      mean_axis (fun k => some ((k : ℚ))) [1, 2, 3, 4, 5, 6] (View.mk [2, 3] [3, 1] 0) 1 =
        some [2, 5] ∧
      (∀ (α : Type) (i1 : Zero α) (i2 : Add α) (i3 : Div α) (fromUsize : Nat → Option α)
        (buf : List α) (v : View) (axis : Nat), axis < v.rank →
          fromUsize (v.len_of axis) = none → mean_axis fromUsize buf v axis = none) ∧
      (∀ (α : Type) (i1 : Zero α) (i2 : Add α) (i3 : Div α) (fromUsize : Nat → Option α)
        (buf : List α) (v : View) (axis : Nat) (c : α), axis < v.rank →
          fromUsize (v.len_of axis) = some c →
            mean_axis fromUsize buf v axis = some ((sum_axis buf v axis).map fun x => x / c)) := by
  refine ⟨?_, ?_, ?_, ?_⟩
  · simp [mean_axis, sum_axis, sumAxisGo, sumAxisBase, laneElems, View.len_of, View.rank,
      View.stride_of, NAIVE_SUM_THRESHOLD, indices, readD, offsetAt, offAux, List.range_succ]
    norm_num
  · simp [mean_axis, sum_axis, sumAxisGo, sumAxisBase, laneElems, View.len_of, View.rank,
      View.stride_of, NAIVE_SUM_THRESHOLD, indices, readD, offsetAt, offAux, List.range_succ,
      pairwise_sum_sum]
    norm_num
  · intro α i1 i2 i3 fromUsize buf v axis hax hnone
    unfold mean_axis
    rw [if_pos hax, hnone]
  · intro α i1 i2 i3 fromUsize buf v axis c hax hsome
    unfold mean_axis
    rw [if_pos hax, hsome]

/-- C6, witness. -/
theorem mean_axis_spec_witness :
    mean_axis (fun _ => (none : Option ℚ)) [1, 2] (View.mk [2] [1] 0) 0 = none :=
  mean_axis_spec.2.2.1 ℚ _ _ _ (fun _ => none) [1, 2] (View.mk [2] [1] 0) 0 (by decide) rfl

/-- C7, counterexample: `mean_axis` along a zero-length axis completes and
returns a value (the elementwise division-by-zero result, NaN for IEEE
floats), and `var_axis` with `ddof = n` (so `count - ddof = 0`) likewise
completes, where the claim demands an unrecoverable fault. -/
theorem zero_len_axis_cex :
    (mean_axis (fun k => some ((k : ℚ))) [] (View.mk [0, 2] [2, 1] 0) 0).isSome = true ∧
      (var_axis [1, 2] (View.mk [2] [1] 0) 0 2).isSome = true := by
  constructor
  · simp [mean_axis, View.len_of, View.rank]
  · simp [var_axis, View.len_of, View.rank]

/-- C7, amended: reducing along a zero-length axis with `mean_axis`, or
`var_axis` with `count - ddof = 0`, completes and produces a result array
whose entries are the element type's total division-by-zero values (NaN for
IEEE floats) instead of raising an unrecoverable fault; no panic occurs
beyond the documented guards. -/
theorem zero_len_axis_completes :
    (∀ (buf : List ℚ) (v : View) (axis : Nat), axis < v.rank → v.len_of axis = 0 →
        (mean_axis (fun k => some ((k : ℚ))) buf v axis).isSome = true) ∧
      (∀ (buf : List ℚ) (v : View) (axis : Nat) (ddof : ℚ), axis < v.rank →
        ddof = (v.len_of axis : ℚ) → (var_axis buf v axis ddof).isSome = true) := by
  constructor
  · intro buf v axis hax hlen
    unfold mean_axis
    rw [if_pos hax]
    simp
  · intro buf v axis ddof hax hddof
    unfold var_axis
    rw [if_pos hax, if_neg]
    · simp
    · push_neg
      subst hddof
      constructor
      · positivity
      · exact le_refl _

/-- C7, witness. -/
theorem zero_len_axis_completes_witness :
    (mean_axis (fun k => some ((k : ℚ))) ([] : List ℚ) (View.mk [0] [1] 0) 0).isSome = true :=
  zero_len_axis_completes.1 [] (View.mk [0] [1] 0) 0 (by decide) rfl

/-- C8: `into_slice` succeeds exactly when the view is contiguous in
standard (row-major) order, and then — for an in-bounds view — returns the
flat element run of length equal to the view's element count, which is
precisely the view's row-major element sequence; in every other case it
signals unavailability with `None`. -/
theorem into_slice_main_spec {α : Type} [Zero α] (buf : List α) (v : View) :
    ((into_slice buf v).isSome = true ↔ is_standard_layout v = true) ∧
      (∀ s, into_slice buf v = some s →
        0 ≤ v.offset → v.offset.toNat + v.count ≤ buf.length →
          s.length = v.count ∧ s = viewElems buf v) :=
  into_slice_spec buf v

/-- C8, witness. -/
theorem into_slice_main_spec_witness :
    ([11, 12, 13] : List Int).length = (View.mk [3] [1] 1).count ∧
      ([11, 12, 13] : List Int) = viewElems [10, 11, 12, 13] (View.mk [3] [1] 1) :=
  (into_slice_main_spec [10, 11, 12, 13] (View.mk [3] [1] 1)).2 [11, 12, 13]
    (by decide) (by decide) (by decide)

/-- C9: when the element addition is associative and commutative with zero
as identity, every summation path — `pairwise_sum`, `pure_pairwise_sum`,
`iterator_pairwise_sum`, and the dispatching array method `sum` over any
memory layout — returns exactly the plain left-to-right sum of the elements
in logical order, and an array with no elements sums to zero. -/
theorem sum_refinement {α : Type} [AddCommMonoid α] :
    (∀ (buf : List α) (v : View), sum buf v = (viewElems buf v).sum) ∧
      (∀ v : List α, pairwise_sum v = v.sum) ∧
      (∀ v : List α, pure_pairwise_sum v = v.sum) ∧
      (∀ v : List α, iterator_pairwise_sum v = v.sum) ∧
      (∀ (buf : List α) (v : View), v.count = 0 → sum buf v = 0) := by
  refine ⟨sum_eq_list_sum, pairwise_sum_sum, pure_pairwise_sum_sum, iterator_pairwise_sum_sum, ?_⟩
  intro buf v hc
  rw [sum_eq_list_sum]
  have hlen : (viewElems buf v).length = 0 := by
    simp [viewElems, View.offsets, indices_length, View.count] at hc ⊢
    simp [hc]
  rw [List.eq_nil_of_length_eq_zero hlen]
  rfl

/-- C9, witness. -/
theorem sum_refinement_witness :
    sum ([] : List Int) (View.mk [0] [1] 0) = 0 :=
  (sum_refinement (α := Int)).2.2.2.2 [] (View.mk [0] [1] 0) rfl

/-- C10: `unrolled_dot` and `unrolled_eq` are total on slices of unequal
length: both truncate to the minimum of the two lengths, `unrolled_dot`
returning the dot product of the common leading parts (stated over an
addition that is associative and commutative, where the unrolled
accumulation equals the plain dot product) and `unrolled_eq` returning
whether the common leading parts are elementwise equal. -/
theorem unrolled_truncation_spec {α : Type} [AddCommMonoid α] [Mul α] [DecidableEq α] :
    (∀ xs ys : List α, unrolled_dot xs ys = (List.zipWith (fun a b => a * b) xs ys).sum) ∧
      (∀ xs ys : List α, (unrolled_eq xs ys = true ↔
        xs.take (min xs.length ys.length) = ys.take (min xs.length ys.length))) :=
  ⟨unrolled_dot_spec, unrolled_eq_spec⟩

/-! ## Concrete sanity checks -/

example : unrolled_fold [1, 2, 3] 0 (· + ·) = 6 := by decide

example : pairwise_sum [1, 2, 3, 4] = 10 := by decide

example : iterator_pairwise_sum (List.range 130) = 8385 := by decide

example : pure_pairwise_sum [1, 2, 3] = 6 := by decide

example : unrolled_dot [1, 2, 3] [4, 5, 6, 7] = 32 := by decide

example : unrolled_eq [1, 2, 3] [1, 2] = true := by decide

example : unrolled_eq [1, 2, 3] [1, 5, 3] = false := by decide

example : unrolled_dot (List.range 20) (List.range 20) = 2470 := by decide

example : indices [2, 3] = [[0,0],[0,1],[0,2],[1,0],[1,1],[1,2]] := by decide

example : (View.mk [2, 3] [3, 1] 0).offsets = [0, 1, 2, 3, 4, 5] := by decide

example : (View.mk [2, 3] [1, 2] 1).offsets = [1, 3, 5, 2, 4, 6] := by decide

example : into_slice ([10, 11, 12, 13] : List Int) (View.mk [3] [1] 1) = some [11, 12, 13] := by decide

example : (View.mk [2, 3] [3, 1] 0).split_at 1 2 = some
  (View.mk [2, 2] [3, 1] 0, View.mk [2, 1] [3, 1] 2) := by decide

example : var_axis [1, 2, 3, 4, 5, 6] (View.mk [3, 2] [2, 1] 0) 0 1 = some [4, 4] := by
  simp [var_axis, View.len_of, View.rank, indices, welfordStep, readD, offsetAt, offAux,
    List.range_succ]
  norm_num

example : mean_axis (fun k => some (k : ℚ)) [1, 2, 3, 4, 5, 6] (View.mk [2, 3] [3, 1] 0) 0 =
    some [5/2, 7/2, 9/2] := by
  simp [mean_axis, sum_axis, sumAxisGo, sumAxisBase, laneElems, View.len_of, View.rank,
    View.stride_of, NAIVE_SUM_THRESHOLD, indices, readD, offsetAt, offAux, List.range_succ]
  norm_num

example : mean_axis (fun k => some (k : ℚ)) [1, 2, 3, 4, 5, 6] (View.mk [2, 3] [3, 1] 0) 1 =
    some [2, 5] := by
  simp [mean_axis, sum_axis, sumAxisGo, sumAxisBase, laneElems, View.len_of, View.rank,
    View.stride_of, NAIVE_SUM_THRESHOLD, indices, readD, offsetAt, offAux, List.range_succ,
    pairwise_sum_sum]
  norm_num

example : (var_axis [1, 2, 3, 4, 5, 6] (View.mk [3, 2] [2, 1] 0) 0 3).isSome = true := by
  simp [var_axis, View.len_of, View.rank]

example : (mean_axis (fun k => some (k : ℚ)) [] (View.mk [0, 2] [2, 1] 0) 0).isSome = true := by
  simp [mean_axis, View.len_of, View.rank]

example : all_close [1, 2, 3, 4] (View.mk [2, 2] [2, 1] 0) [1, 2] (View.mk [2] [1] 0)
    0 = some false := by
  simp [all_close, broadcastTo, broadcastAxes, View.rank, viewElems, View.offsets, indices,
    offsetAt, offAux, readD, acFold, List.range_succ, List.replicate]
  norm_num

example : all_close [1, 2, 1, 2] (View.mk [2, 2] [2, 1] 0) [1, 2] (View.mk [2] [1] 0)
    0 = some true := by
  simp [all_close, broadcastTo, broadcastAxes, View.rank, viewElems, View.offsets, indices,
    offsetAt, offAux, readD, acFold, List.range_succ, List.replicate]

example : sum ([1, 2, 3, 4] : List Int) (View.mk [2, 2] [2, 1] 0) = 10 := by decide

end Ndarray
